import Mathlib

/-!
Verification development for the git-gui repository's backend
(`src/git_gui/git_backend.py`).  Python strings that are manipulated
character-by-character are modelled as `List Char`; file paths that are only
compared for equality are modelled as `String`.  Fallible operations return
`Except`.
-/

namespace GitGui

/-- Embeds the `FileStatus` dataclass (git_backend.py lines 8-11).  The
`status` field is the 1-2 character code, modelled as a list of characters. -/
structure FileStatus where
  path : String
  status : List Char
deriving DecidableEq, Repr

/-- Embeds the staged-status dictionary lookup of `Repository.status`
(git_backend.py lines 33-38): `{'A': 'A ', 'D': 'D ', 'R': 'R ', 'M': 'M '}.get(code, 'M ')`. -/
def stagedStatus (code : Char) : List Char :=
  if code = 'A' then ['A', ' ']
  else if code = 'D' then ['D', ' ']
  else if code = 'R' then ['R', ' ']
  else if code = 'M' then ['M', ' ']
  else ['M', ' ']

/-- Embeds the unstaged-status dictionary lookup of `Repository.status`
(git_backend.py lines 46-51). -/
def unstagedStatus (code : Char) : List Char :=
  if code = 'A' then [' ', 'A']
  else if code = 'D' then [' ', 'D']
  else if code = 'R' then [' ', 'R']
  else if code = 'M' then [' ', 'M']
  else [' ', 'M']

/-- Embeds the inner `for s in statuses: if s.path == path: s.status = s.status[0] + status[1]; break`
loop (git_backend.py lines 53-56): the first record whose path matches gets its
second status character overwritten, later records are untouched. -/
def overwriteSecond (l : List FileStatus) (path : String) (st : List Char) :
    List FileStatus :=
  match l with
  | [] => []
  | s :: rest =>
      if s.path = path then
        { s with status := s.status.take 1 ++ (st.drop 1).take 1 } :: rest
      else s :: overwriteSecond rest path st

/-- One step of the unstaged-changes loop (git_backend.py lines 43-58).
`stagedPaths` is the set computed at line 42 before the loop runs. -/
def unstagedFold (stagedPaths : List String) (acc : List FileStatus)
    (d : String × Char) : List FileStatus :=
  let st := unstagedStatus d.2
  if d.1 ∈ stagedPaths then overwriteSecond acc d.1 st
  else acc ++ [FileStatus.mk d.1 st]

/-- Embeds `Repository.status` (git_backend.py lines 25-64).  The three raw
change sources delivered by the VCS library are the inputs: `staged` models the
`(path, change_type)` pairs of `repo.index.diff('HEAD')` (the path being
`b_path or a_path`), `unstaged` models those of `repo.index.diff(None)`, and
`untracked` models `repo.untracked_files`. -/
def status (staged unstaged : List (String × Char)) (untracked : List String) :
    List FileStatus :=
  let statuses := staged.map (fun d => FileStatus.mk d.1 (stagedStatus d.2))
  let stagedPaths := statuses.map (·.path)
  let statuses := unstaged.foldl (unstagedFold stagedPaths) statuses
  statuses ++ untracked.map (fun p => FileStatus.mk p ['?', '?'])

/-- Embeds `Repository.filter_statuses` (git_backend.py lines 241-243). -/
def filter_statuses (staged unstaged : List (String × Char))
    (untracked : List String) (path_filter : String) : List FileStatus :=
  (status staged unstaged untracked).filter (fun s => s.path.startsWith path_filter)

/-- Well-formedness of the three raw change sources, as git reports them: the
index-vs-HEAD diff lists each path once, the worktree-vs-index diff lists each
path once, the untracked list has no duplicates, and an untracked path (present
in the worktree but absent from the index) never occurs in the worktree-vs-index
diff (whose entries are index entries).  Note that an untracked path MAY occur
in the index-vs-HEAD diff: after `git rm --cached f` the path `f` is both a
staged deletion and untracked. -/
def WFStatusInputs (staged unstaged : List (String × Char))
    (untracked : List String) : Prop :=
  (staged.map Prod.fst).Nodup ∧ (unstaged.map Prod.fst).Nodup ∧
  untracked.Nodup ∧ ∀ p ∈ untracked, p ∉ unstaged.map Prod.fst

instance (staged unstaged : List (String × Char)) (untracked : List String) :
    Decidable (WFStatusInputs staged unstaged untracked) := by
  unfold WFStatusInputs; infer_instance

/-- The single-slot code the spec describes: Added to `A`, Deleted to `D`,
Renamed to `R`, any other change kind to `M`. -/
def slotChar (c : Char) : Char :=
  if c = 'A' ∨ c = 'D' ∨ c = 'R' then c else 'M'

theorem stagedStatus_eq (c : Char) : stagedStatus c = [slotChar c, ' '] := by
  unfold stagedStatus slotChar
  by_cases hA : c = 'A' <;> by_cases hD : c = 'D' <;> by_cases hR : c = 'R' <;>
    by_cases hM : c = 'M' <;> simp [hA, hD, hR, hM]

theorem unstagedStatus_eq (c : Char) : unstagedStatus c = [' ', slotChar c] := by
  unfold unstagedStatus slotChar
  by_cases hA : c = 'A' <;> by_cases hD : c = 'D' <;> by_cases hR : c = 'R' <;>
    by_cases hM : c = 'M' <;> simp [hA, hD, hR, hM]

/-- The change kind the worktree-vs-index diff reports for a path, mirroring
how the loop at git_backend.py lines 43-58 consumes the diff entries: the
first entry for the path wins. -/
def lookupKind (u : List (String × Char)) (p : String) : Option Char :=
  match u with
  | [] => none
  | d :: rest => if d.1 = p then some d.2 else lookupKind rest p

/-- The status a staged entry ends up with after the unstaged loop ran. -/
def mergeStatus (u : List (String × Char)) (d : String × Char) : List Char :=
  match lookupKind u d.1 with
  | some cu => (stagedStatus d.2).take 1 ++ ((unstagedStatus cu).drop 1).take 1
  | none => stagedStatus d.2

/-- Closed form of the tracked part of `status`: the staged records (with the
worktree slot merged in when the path also has an unstaged change) followed by
the records of unstaged changes whose path has no staged change. -/
def trackedSpec (staged unstaged : List (String × Char)) : List FileStatus :=
  staged.map (fun d => FileStatus.mk d.1 (mergeStatus unstaged d)) ++
    (unstaged.filter (fun d => decide (d.1 ∉ staged.map Prod.fst))).map
      (fun d => FileStatus.mk d.1 (unstagedStatus d.2))

theorem lookupKind_nil (p : String) : lookupKind [] p = none := rfl

theorem lookupKind_cons (d : String × Char) (rest : List (String × Char))
    (p : String) :
    lookupKind (d :: rest) p = if d.1 = p then some d.2 else lookupKind rest p := rfl

theorem overwriteSecond_cons (s : FileStatus) (rest : List FileStatus)
    (p : String) (st : List Char) :
    overwriteSecond (s :: rest) p st =
      if s.path = p then
        { s with status := s.status.take 1 ++ (st.drop 1).take 1 } :: rest
      else s :: overwriteSecond rest p st := rfl

theorem lookupKind_eq_none {u : List (String × Char)} {p : String}
    (h : p ∉ u.map Prod.fst) : lookupKind u p = none := by
  induction u with
  | nil => rfl
  | cons d u ih =>
      simp only [List.map_cons, List.mem_cons, not_or] at h
      have hne : d.1 ≠ p := fun hc => h.1 hc.symm
      unfold lookupKind
      rw [if_neg hne]
      exact ih h.2

theorem lookupKind_append_ne {u : List (String × Char)} {d : String × Char}
    {q : String} (h : q ≠ d.1) : lookupKind (u ++ [d]) q = lookupKind u q := by
  have hne : d.1 ≠ q := fun hc => h hc.symm
  induction u with
  | nil =>
      rw [List.nil_append, lookupKind_cons, if_neg hne]
  | cons e u ih =>
      rw [List.cons_append, lookupKind_cons, lookupKind_cons]
      by_cases he : e.1 = q
      · rw [if_pos he, if_pos he]
      · rw [if_neg he, if_neg he]
        exact ih

theorem lookupKind_append_self {u : List (String × Char)} {d : String × Char}
    (h : lookupKind u d.1 = none) : lookupKind (u ++ [d]) d.1 = some d.2 := by
  induction u with
  | nil =>
      rw [List.nil_append, lookupKind_cons, if_pos rfl]
  | cons e u ih =>
      rw [List.cons_append, lookupKind_cons]
      rw [lookupKind_cons] at h
      by_cases he : e.1 = d.1
      · rw [if_pos he] at h
        exact absurd h (by simp)
      · rw [if_neg he] at h ⊢
        exact ih h

theorem mergeStatus_append_ne {u : List (String × Char)} {d e : String × Char}
    (h : e.1 ≠ d.1) : mergeStatus (u ++ [d]) e = mergeStatus u e := by
  unfold mergeStatus
  rw [lookupKind_append_ne h]

theorem overwriteSecond_paths (l : List FileStatus) (p : String) (st : List Char) :
    (overwriteSecond l p st).map (·.path) = l.map (·.path) := by
  induction l with
  | nil => rfl
  | cons s rest ih =>
      unfold overwriteSecond
      by_cases h : s.path = p <;> simp [h, ih]

theorem overwriteSecond_append_left {A : List FileStatus} {p : String}
    (B : List FileStatus) (st : List Char) (h : p ∈ A.map (·.path)) :
    overwriteSecond (A ++ B) p st = overwriteSecond A p st ++ B := by
  induction A with
  | nil => simp at h
  | cons s rest ih =>
      simp only [List.map_cons, List.mem_cons] at h
      unfold overwriteSecond
      by_cases hs : s.path = p
      · simp [hs]
      · have hrest : p ∈ rest.map (·.path) := by
          rcases h with h | h
          · exact absurd h.symm hs
          · exact h
        simp [hs, ih hrest]

theorem overwriteSecond_map (staged u : List (String × Char)) (d : String × Char)
    (hs : (staged.map Prod.fst).Nodup) (hnone : lookupKind u d.1 = none) :
    overwriteSecond (staged.map (fun e => FileStatus.mk e.1 (mergeStatus u e)))
        d.1 (unstagedStatus d.2) =
      staged.map (fun e => FileStatus.mk e.1 (mergeStatus (u ++ [d]) e)) := by
  induction staged with
  | nil => rfl
  | cons e rest ih =>
      simp only [List.map_cons, List.nodup_cons] at hs
      rw [List.map_cons, List.map_cons, overwriteSecond_cons]
      by_cases he : e.1 = d.1
      · have hcond : (FileStatus.mk e.1 (mergeStatus u e)).path = d.1 := he
        rw [if_pos hcond]
        have h1 : mergeStatus u e = stagedStatus e.2 := by
          unfold mergeStatus
          rw [he, hnone]
        have h2 : mergeStatus (u ++ [d]) e =
            (stagedStatus e.2).take 1 ++ ((unstagedStatus d.2).drop 1).take 1 := by
          unfold mergeStatus
          rw [he, lookupKind_append_self hnone]
        have h3 : rest.map (fun x => FileStatus.mk x.1 (mergeStatus (u ++ [d]) x)) =
            rest.map (fun x => FileStatus.mk x.1 (mergeStatus u x)) := by
          apply List.map_congr_left
          intro x hx
          have hxne : x.1 ≠ d.1 := by
            rw [← he]
            intro hc
            exact hs.1 (by rw [← hc]; exact List.mem_map_of_mem Prod.fst hx)
          rw [mergeStatus_append_ne hxne]
        show FileStatus.mk e.1 ((mergeStatus u e).take 1 ++
            ((unstagedStatus d.2).drop 1).take 1) :: rest.map
              (fun x => FileStatus.mk x.1 (mergeStatus u x)) = _
        rw [h1, h2, h3]
      · have hcond : (FileStatus.mk e.1 (mergeStatus u e)).path ≠ d.1 := he
        rw [if_neg hcond, mergeStatus_append_ne he, ih hs.2]

theorem fold_eq_trackedSpec (staged unstaged : List (String × Char))
    (hs : (staged.map Prod.fst).Nodup) (hu : (unstaged.map Prod.fst).Nodup) :
    unstaged.foldl (unstagedFold (staged.map Prod.fst))
        (staged.map (fun d => FileStatus.mk d.1 (stagedStatus d.2))) =
      trackedSpec staged unstaged := by
  induction unstaged using List.reverseRecOn with
  | nil =>
      unfold trackedSpec
      simp only [List.foldl_nil, List.filter_nil, List.map_nil, List.append_nil]
      apply List.map_congr_left
      intro d _
      have : mergeStatus [] d = stagedStatus d.2 := rfl
      rw [this]
  | append_singleton u d ih =>
      have hmap : (u ++ [d]).map Prod.fst = u.map Prod.fst ++ [d.1] := by simp
      rw [hmap] at hu
      have hu' : (u.map Prod.fst).Nodup := (List.nodup_append.mp hu).1
      have hd : d.1 ∉ u.map Prod.fst := by
        intro hc
        exact (List.nodup_append.mp hu).2.2 hc (List.mem_singleton_self d.1)
      rw [List.foldl_append, ih hu', List.foldl_cons, List.foldl_nil]
      unfold unstagedFold
      by_cases hmem : d.1 ∈ staged.map Prod.fst
      · rw [if_pos hmem]
        have hmemA : d.1 ∈
            (staged.map (fun e => FileStatus.mk e.1 (mergeStatus u e))).map (·.path) := by
          simpa using hmem
        unfold trackedSpec
        rw [overwriteSecond_append_left _ _ hmemA,
          overwriteSecond_map staged u d hs (lookupKind_eq_none hd)]
        have hfilter : ((u ++ [d]).filter
            (fun e => decide (e.1 ∉ staged.map Prod.fst))) =
            u.filter (fun e => decide (e.1 ∉ staged.map Prod.fst)) := by
          rw [List.filter_append]
          simp [hmem]
        rw [hfilter]
      · rw [if_neg hmem]
        unfold trackedSpec
        have hA : staged.map (fun e => FileStatus.mk e.1 (mergeStatus (u ++ [d]) e)) =
            staged.map (fun e => FileStatus.mk e.1 (mergeStatus u e)) := by
          apply List.map_congr_left
          intro x hx
          have hxne : x.1 ≠ d.1 := by
            intro hc
            exact hmem (by rw [← hc]; exact List.mem_map_of_mem Prod.fst hx)
          rw [mergeStatus_append_ne hxne]
        have hfilter : ((u ++ [d]).filter
            (fun e => decide (e.1 ∉ staged.map Prod.fst))) =
            u.filter (fun e => decide (e.1 ∉ staged.map Prod.fst)) ++ [d] := by
          rw [List.filter_append]
          simp [hmem]
        rw [hA, hfilter]
        simp

theorem lookupKind_eq_some_of_mem {u : List (String × Char)} {p : String} {c : Char}
    (hu : (u.map Prod.fst).Nodup) (h : (p, c) ∈ u) : lookupKind u p = some c := by
  induction u with
  | nil => simp at h
  | cons d rest ih =>
      rw [List.map_cons, List.nodup_cons] at hu
      rw [lookupKind_cons]
      rcases List.mem_cons.mp h with h | h
      · rw [← h]
        rw [if_pos rfl]
      · by_cases hd : d.1 = p
        · exfalso
          apply hu.1
          rw [hd]
          exact List.mem_map_of_mem Prod.fst h
        · rw [if_neg hd]
          exact ih hu.2 h

theorem map_path_mk (l : List (String × Char)) (f : String × Char → List Char) :
    (l.map (fun e => FileStatus.mk e.1 (f e))).map (·.path) = l.map Prod.fst := by
  rw [List.map_map]
  apply List.map_congr_left
  intro e _
  rfl

/-- The paths of the tracked part: the staged paths followed by the unstaged
paths that have no staged change. -/
theorem trackedSpec_paths (staged unstaged : List (String × Char)) :
    (trackedSpec staged unstaged).map (·.path) =
      staged.map Prod.fst ++
        ((unstaged.filter (fun d => decide (d.1 ∉ staged.map Prod.fst))).map Prod.fst) := by
  unfold trackedSpec
  rw [List.map_append, map_path_mk, map_path_mk]

theorem trackedSpec_paths_nodup (staged unstaged : List (String × Char))
    (hs : (staged.map Prod.fst).Nodup) (hu : (unstaged.map Prod.fst).Nodup) :
    ((trackedSpec staged unstaged).map (·.path)).Nodup := by
  rw [trackedSpec_paths, List.nodup_append]
  refine ⟨hs, ?_, ?_⟩
  · exact hu.sublist ((List.filter_sublist unstaged).map Prod.fst)
  · intro a ha hb
    obtain ⟨d, hd, hda⟩ := List.mem_map.mp hb
    have := (List.mem_filter.mp hd).2
    rw [decide_eq_true_eq] at this
    exact this (hda ▸ ha)

/-- Master characterization of `status` for well-formed diff inputs. -/
theorem status_eq_spec (staged unstaged : List (String × Char))
    (untracked : List String)
    (hs : (staged.map Prod.fst).Nodup) (hu : (unstaged.map Prod.fst).Nodup) :
    status staged unstaged untracked =
      trackedSpec staged unstaged ++
        untracked.map (fun p => FileStatus.mk p ['?', '?']) := by
  unfold status
  simp only
  rw [show (staged.map (fun d => FileStatus.mk d.1 (stagedStatus d.2))).map (·.path) =
        staged.map Prod.fst by simp]
  rw [fold_eq_trackedSpec staged unstaged hs hu]

theorem mergeStatus_eval {unstaged : List (String × Char)} {p : String}
    {cs cu : Char} (hu : (unstaged.map Prod.fst).Nodup) (h : (p, cu) ∈ unstaged) :
    mergeStatus unstaged (p, cs) = [slotChar cs, slotChar cu] := by
  unfold mergeStatus
  rw [show lookupKind unstaged (p, cs).1 = some cu from lookupKind_eq_some_of_mem hu h]
  show (stagedStatus (p, cs).2).take 1 ++ ((unstagedStatus cu).drop 1).take 1 = _
  rw [stagedStatus_eq, unstagedStatus_eq]
  rfl

theorem mergeStatus_of_not_mem {unstaged : List (String × Char)} {p : String}
    {cs : Char} (h : p ∉ unstaged.map Prod.fst) :
    mergeStatus unstaged (p, cs) = [slotChar cs, ' '] := by
  unfold mergeStatus
  rw [show lookupKind unstaged (p, cs).1 = none from lookupKind_eq_none h]
  exact stagedStatus_eq cs

/-- C1 as the spec states it is refuted by a repository in which a committed
file was removed from the index while still present in the worktree
(`git rm --cached f`): the index-vs-HEAD diff reports `f` and the untracked
list also reports `f`, so `status()` returns two records for the path `f`.
This theorem exhibits the concrete counterexample: the inputs are well formed,
yet the returned sequence holds the path `"f"` twice. -/
theorem C1_counterexample :
    WFStatusInputs [("f", 'D')] [] ["f"] ∧
      status [("f", 'D')] [] ["f"] =
        [FileStatus.mk "f" ['D', ' '], FileStatus.mk "f" ['?', '?']] ∧
      ¬ ((status [("f", 'D')] [] ["f"]).map (·.path)).Nodup := by
  refine ⟨by decide, by decide, by decide⟩

/-- C1 (amended): within one `status()` call each path appears in at most one
TRACKED record: when a path has both an index-vs-HEAD change and a
worktree-vs-index change the two are merged into a single two-character record
whose first character (the staged state) is preserved and whose second
character is overwritten by the worktree state.  A path can however appear in a
second record when it is simultaneously untracked (e.g. a staged deletion with
the file still on disk); in that case the extra record is the `"??"` one, so
any two distinct records sharing a path involve an untracked record. -/
theorem C1_tracked_path_unique (staged unstaged : List (String × Char))
    (untracked : List String)
    (hs : (staged.map Prod.fst).Nodup) (hu : (unstaged.map Prod.fst).Nodup) :
    ((status staged unstaged []).map (·.path)).Nodup ∧
    (∀ p cs cu, (p, cs) ∈ staged → (p, cu) ∈ unstaged →
      FileStatus.mk p [slotChar cs, slotChar cu] ∈ status staged unstaged untracked) ∧
    (∀ s1 s2, s1 ∈ status staged unstaged untracked →
      s2 ∈ status staged unstaged untracked → s1.path = s2.path → s1 ≠ s2 →
      s1.status = ['?', '?'] ∨ s2.status = ['?', '?']) := by
  have hspec := status_eq_spec staged unstaged untracked hs hu
  refine ⟨?_, ?_, ?_⟩
  · rw [status_eq_spec staged unstaged [] hs hu]
    simpa using trackedSpec_paths_nodup staged unstaged hs hu
  · intro p cs cu hcs hcu
    rw [hspec]
    apply List.mem_append_left
    unfold trackedSpec
    apply List.mem_append_left
    refine List.mem_map.mpr ⟨(p, cs), hcs, ?_⟩
    show FileStatus.mk p (mergeStatus unstaged (p, cs)) = _
    rw [mergeStatus_eval hu hcu]
  · intro s1 s2 h1 h2 hpath hne
    rw [hspec] at h1 h2
    rcases List.mem_append.mp h1 with h1t | h1u
    · rcases List.mem_append.mp h2 with h2t | h2u
      · exfalso
        apply hne
        exact List.inj_on_of_nodup_map
          (trackedSpec_paths_nodup staged unstaged hs hu) h1t h2t hpath
      · right
        obtain ⟨q, _, hq⟩ := List.mem_map.mp h2u
        rw [← hq]
    · left
      obtain ⟨q, _, hq⟩ := List.mem_map.mp h1u
      rw [← hq]

/-- C2: `status()` maps every index-vs-HEAD change kind into the first slot
(Added to `A`, Deleted to `D`, Renamed to `R`, anything else to `M`) with the
second slot blank, maps worktree-vs-index change kinds the same way into the
second slot, appends a `"??"` record for every untracked path, and places all
untracked records after all tracked records. -/
theorem C2_slot_mapping (staged unstaged : List (String × Char))
    (untracked : List String)
    (hs : (staged.map Prod.fst).Nodup) (hu : (unstaged.map Prod.fst).Nodup) :
    (status staged unstaged untracked =
      status staged unstaged [] ++
        untracked.map (fun p => FileStatus.mk p ['?', '?'])) ∧
    (∀ p c, (p, c) ∈ staged → p ∉ unstaged.map Prod.fst →
      FileStatus.mk p [slotChar c, ' '] ∈ status staged unstaged untracked) ∧
    (∀ p c, (p, c) ∈ unstaged → p ∉ staged.map Prod.fst →
      FileStatus.mk p [' ', slotChar c] ∈ status staged unstaged untracked) ∧
    slotChar 'A' = 'A' ∧ slotChar 'D' = 'D' ∧ slotChar 'R' = 'R' ∧
    (∀ c, c ≠ 'A' → c ≠ 'D' → c ≠ 'R' → slotChar c = 'M') := by
  have hspec := status_eq_spec staged unstaged untracked hs hu
  refine ⟨?_, ?_, ?_, by decide, by decide, by decide, ?_⟩
  · unfold status
    simp
  · intro p c hc hnot
    rw [hspec]
    apply List.mem_append_left
    unfold trackedSpec
    apply List.mem_append_left
    refine List.mem_map.mpr ⟨(p, c), hc, ?_⟩
    show FileStatus.mk p (mergeStatus unstaged (p, c)) = _
    rw [mergeStatus_of_not_mem hnot]
  · intro p c hc hnot
    rw [hspec]
    apply List.mem_append_left
    unfold trackedSpec
    apply List.mem_append_right
    have hmem : (p, c) ∈ unstaged.filter
        (fun d => decide (d.1 ∉ staged.map Prod.fst)) := by
      rw [List.mem_filter]
      exact ⟨hc, by simpa using hnot⟩
    refine List.mem_map.mpr ⟨(p, c), hmem, ?_⟩
    show FileStatus.mk p (unstagedStatus c) = _
    rw [unstagedStatus_eq]
  · intro c hA hD hR
    unfold slotChar
    rw [if_neg]
    push_neg
    exact ⟨hA, hD, hR⟩

/-- A well-formed tracked status code: two characters from the
index-state/worktree-state alphabet, at least one of them non-blank. -/
def TrackedOk (st : List Char) : Prop :=
  ∃ a b, st = [a, b] ∧ a ∈ [' ', 'A', 'M', 'D', 'R'] ∧
    b ∈ [' ', 'A', 'M', 'D', 'R'] ∧ (a ≠ ' ' ∨ b ≠ ' ')

theorem slotChar_mem (c : Char) : slotChar c ∈ ['A', 'M', 'D', 'R'] := by
  unfold slotChar
  split_ifs with h
  · rcases h with h | h | h <;> rw [h] <;> decide
  · decide

theorem slotChar_ne_blank (c : Char) : slotChar c ≠ ' ' := by
  have := slotChar_mem c
  intro hc
  rw [hc] at this
  exact absurd this (by decide)

theorem mem_wide_of_mem_narrow {c : Char} (h : c ∈ ['A', 'M', 'D', 'R']) :
    c ∈ [' ', 'A', 'M', 'D', 'R'] := by
  simp only [List.mem_cons, List.mem_singleton] at h ⊢
  tauto

theorem stagedStatus_trackedOk (c : Char) : TrackedOk (stagedStatus c) := by
  rw [stagedStatus_eq]
  exact ⟨slotChar c, ' ', rfl, mem_wide_of_mem_narrow (slotChar_mem c),
    by decide, Or.inl (slotChar_ne_blank c)⟩

theorem unstagedStatus_trackedOk (c : Char) : TrackedOk (unstagedStatus c) := by
  rw [unstagedStatus_eq]
  exact ⟨' ', slotChar c, rfl, by decide,
    mem_wide_of_mem_narrow (slotChar_mem c), Or.inr (slotChar_ne_blank c)⟩

theorem merge_trackedOk {old : List Char} (c : Char) (h : TrackedOk old) :
    TrackedOk (old.take 1 ++ ((unstagedStatus c).drop 1).take 1) := by
  obtain ⟨a, b, hab, ha, _, _⟩ := h
  rw [hab, unstagedStatus_eq]
  exact ⟨a, slotChar c, rfl, ha, mem_wide_of_mem_narrow (slotChar_mem c),
    Or.inr (slotChar_ne_blank c)⟩

theorem overwriteSecond_trackedOk {l : List FileStatus} {p : String} {c : Char}
    (hl : ∀ s ∈ l, TrackedOk s.status) :
    ∀ s ∈ overwriteSecond l p (unstagedStatus c), TrackedOk s.status := by
  induction l with
  | nil => simp [overwriteSecond]
  | cons e rest ih =>
      rw [overwriteSecond_cons]
      by_cases he : e.path = p
      · rw [if_pos he]
        intro s hs
        rcases List.mem_cons.mp hs with hs | hs
        · rw [hs]
          exact merge_trackedOk c (hl e (List.mem_cons_self e rest))
        · exact hl s (List.mem_cons_of_mem e hs)
      · rw [if_neg he]
        intro s hs
        rcases List.mem_cons.mp hs with hs | hs
        · rw [hs]
          exact hl e (List.mem_cons_self e rest)
        · exact ih (fun t ht => hl t (List.mem_cons_of_mem e ht)) s hs

theorem foldl_trackedOk (P : List String) (u : List (String × Char))
    (acc : List FileStatus) (hacc : ∀ s ∈ acc, TrackedOk s.status) :
    ∀ s ∈ u.foldl (unstagedFold P) acc, TrackedOk s.status := by
  induction u generalizing acc with
  | nil => simpa using hacc
  | cons d rest ih =>
      rw [List.foldl_cons]
      apply ih
      intro s hsmem
      simp only [unstagedFold] at hsmem
      by_cases hm : d.1 ∈ P
      · rw [if_pos hm] at hsmem
        exact overwriteSecond_trackedOk hacc s hsmem
      · rw [if_neg hm] at hsmem
        rcases List.mem_append.mp hsmem with h | h
        · exact hacc s h
        · rw [List.mem_singleton.mp h]
          exact unstagedStatus_trackedOk d.2

theorem status_trackedOk_or_untracked (staged unstaged : List (String × Char))
    (untracked : List String) :
    ∀ s ∈ status staged unstaged untracked,
      TrackedOk s.status ∨ s.status = ['?', '?'] := by
  intro s hs
  unfold status at hs
  simp only at hs
  rcases List.mem_append.mp hs with h | h
  · left
    refine foldl_trackedOk _ unstaged _ ?_ s h
    intro t ht
    obtain ⟨d, _, hd⟩ := List.mem_map.mp ht
    rw [← hd]
    exact stagedStatus_trackedOk d.2
  · right
    obtain ⟨q, _, hq⟩ := List.mem_map.mp h
    rw [← hq]

/-- C9: every record returned by `status()` (and hence by `filter_statuses`)
has a status of exactly two characters drawn from A, M, D, R, blank and
question mark; a question mark occurs only as the full `"??"` code; every
non-untracked record has at least one non-blank slot; no one-character codes
are produced. -/
theorem C9_status_invariant (staged unstaged : List (String × Char))
    (untracked : List String) (pf : String) :
    ∀ s, (s ∈ status staged unstaged untracked ∨
        s ∈ filter_statuses staged unstaged untracked pf) →
      s.status.length = 2 ∧
      (∀ c ∈ s.status, c ∈ ['A', 'M', 'D', 'R', ' ', '?']) ∧
      ('?' ∈ s.status → s.status = ['?', '?']) ∧
      (s.status ≠ ['?', '?'] → ∃ c ∈ s.status, c ≠ ' ') := by
  intro s hs
  have hmem : s ∈ status staged unstaged untracked := by
    rcases hs with h | h
    · exact h
    · exact (List.mem_filter.mp h).1
  rcases status_trackedOk_or_untracked staged unstaged untracked s hmem with hok | hq
  · obtain ⟨a, b, hab, ha, hb, hnb⟩ := hok
    rw [hab]
    simp only [List.mem_cons, List.not_mem_nil, or_false] at ha hb
    refine ⟨rfl, ?_, ?_, ?_⟩
    · intro c hc
      rcases List.mem_cons.mp hc with hc | hc
      · rcases ha with h | h | h | h | h <;> rw [hc, h] <;> decide
      · rw [List.mem_singleton.mp hc]
        rcases hb with h | h | h | h | h <;> rw [h] <;> decide
    · intro hq
      exfalso
      rcases List.mem_cons.mp hq with hc | hc
      · rcases ha with h | h | h | h | h <;> rw [h] at hc <;> exact absurd hc (by decide)
      · rw [List.mem_singleton] at hc
        rcases hb with h | h | h | h | h <;> rw [h] at hc <;> exact absurd hc (by decide)
    · intro _
      rcases hnb with h | h
      · exact ⟨a, List.mem_cons_self a [b], h⟩
      · exact ⟨b, List.mem_cons_of_mem a (List.mem_singleton_self b), h⟩
  · rw [hq]
    refine ⟨rfl, ?_, fun _ => rfl, fun hc => absurd rfl hc⟩
    intro c hc
    rcases List.mem_cons.mp hc with hc | hc
    · rw [hc]; decide
    · rw [List.mem_singleton.mp hc]; decide

/-! ### Ignore-list editor (`Repository.ignore`, git_backend.py lines 66-80) -/

/-- The whitespace characters removed by the Python `str.strip()` call at
git_backend.py line 74 (the ASCII ones; the inputs of interest are ASCII). -/
def isSpaceChar (c : Char) : Bool :=
  c = ' ' || c = '\t' || c = '\n' || c = '\r' || c = '\x0b' || c = '\x0c'

/-- Models Python `line.strip()` on a list of characters. -/
def strip (l : List Char) : List Char :=
  ((l.dropWhile isSpaceChar).reverse.dropWhile isSpaceChar).reverse

def splitLinesAux (l : List Char) (cur : List Char) : List (List Char) :=
  match l with
  | [] => [cur.reverse]
  | c :: rest =>
      if c = '\n' then cur.reverse :: splitLinesAux rest []
      else splitLinesAux rest (c :: cur)

/-- Splits file content at newline characters (the newline-free pieces between
the separators; Python line iteration keeps the trailing newline on each line,
but the subsequent `strip()` makes the two views agree). -/
def splitLines (l : List Char) : List (List Char) := splitLinesAux l []

/-- Models the read at git_backend.py lines 71-74: a missing file is treated as
empty, every line is stripped and blank lines are discarded. -/
def existingOf (content : Option (List Char)) : List (List Char) :=
  match content with
  | none => []
  | some s => ((splitLines s).map strip).filter (· ≠ [])

/-- Embeds `Repository.ignore` (git_backend.py lines 66-80) as a function from
the current `.gitignore` content (`none` when the file does not exist) and the
requested patterns to the new content plus a flag recording whether the
`.gitignore` was staged (`self.repo.index.add`, line 80). -/
def ignore (content : Option (List Char)) (files : List (List Char)) :
    Option (List Char) × Bool :=
  if files = [] then (content, false)
  else
    let existing := existingOf content
    let newContent := files.foldl
      (fun acc f => if f ∈ existing then acc else acc ++ f ++ ['\n'])
      (content.getD [])
    (some newContent, true)

/-- The bytes a call to `ignore` appends: one line per input pattern not
already present, in input order, each with a trailing newline. -/
def appendixOf (content : Option (List Char)) (files : List (List Char)) :
    List Char :=
  ((files.filter (fun f => decide (f ∉ existingOf content))).map
    (fun f => f ++ ['\n'])).flatten

/-- The ignore file is in a state the appends of `ignore` keep tidy: absent,
empty, or ending with a newline. -/
def NlTerminated (content : Option (List Char)) : Prop :=
  content = none ∨ content = some [] ∨ ∃ s, content = some (s ++ ['\n'])

theorem splitLinesAux_append_no_nl {P : List Char}
    (h : ∀ c ∈ P, ¬ c = '\n') (rest cur : List Char) :
    splitLinesAux (P ++ rest) cur = splitLinesAux rest (P.reverse ++ cur) := by
  induction P generalizing cur with
  | nil => simp
  | cons c P ih =>
      have hc : ¬ c = '\n' := h c (List.mem_cons_self c P)
      rw [List.cons_append]
      show (if c = '\n' then _ else splitLinesAux (P ++ rest) (c :: cur)) = _
      rw [if_neg hc, ih (fun x hx => h x (List.mem_cons_of_mem c hx))]
      simp

theorem splitLines_clean_append {P : List Char} (h : ∀ c ∈ P, ¬ c = '\n') :
    splitLines (P ++ ['\n']) = [P, []] := by
  unfold splitLines
  rw [splitLinesAux_append_no_nl h]
  show (if ('\n' : Char) = '\n' then _ else _) = _
  rw [if_pos rfl]
  simp [splitLinesAux]

theorem splitLinesAux_ne_nil (l cur : List Char) : splitLinesAux l cur ≠ [] := by
  induction l generalizing cur with
  | nil => simp [splitLinesAux]
  | cons c rest ih =>
      show (if c = '\n' then cur.reverse :: splitLinesAux rest [] else _) ≠ []
      by_cases hc : c = '\n'
      · rw [if_pos hc]
        simp
      · rw [if_neg hc]
        exact ih (c :: cur)

theorem dropLast_cons_ne {α : Type} (a : α) {l : List α} (h : l ≠ []) :
    (a :: l).dropLast = a :: l.dropLast := by
  cases l with
  | nil => exact absurd rfl h
  | cons b t => rfl

theorem splitLinesAux_newline_append (xs t cur : List Char) :
    splitLinesAux (xs ++ '\n' :: t) cur =
      (splitLinesAux (xs ++ ['\n']) cur).dropLast ++ splitLinesAux t [] := by
  induction xs generalizing cur with
  | nil =>
      show (if ('\n' : Char) = '\n' then cur.reverse :: splitLinesAux t [] else _) =
        ((if ('\n' : Char) = '\n' then cur.reverse :: splitLinesAux [] [] else _)).dropLast
          ++ splitLinesAux t []
      rw [if_pos rfl, if_pos rfl]
      simp [splitLinesAux]
  | cons x xs ih =>
      rw [List.cons_append, List.cons_append]
      by_cases hx : x = '\n'
      · show (if x = '\n' then cur.reverse :: splitLinesAux (xs ++ '\n' :: t) [] else _) =
          ((if x = '\n' then cur.reverse :: splitLinesAux (xs ++ ['\n']) [] else _)).dropLast
            ++ splitLinesAux t []
        rw [if_pos hx, if_pos hx, ih,
          dropLast_cons_ne _ (splitLinesAux_ne_nil (xs ++ ['\n']) [])]
        rfl
      · show (if x = '\n' then _ else splitLinesAux (xs ++ '\n' :: t) (x :: cur)) =
          ((if x = '\n' then _ else splitLinesAux (xs ++ ['\n']) (x :: cur))).dropLast
            ++ splitLinesAux t []
        rw [if_neg hx, if_neg hx, ih]

theorem strip_nil : strip [] = [] := rfl

theorem mem_existing_after_append (base P : List Char)
    (hP : P ≠ []) (hstrip : strip P = P) (hnl : ∀ c ∈ P, ¬ c = '\n')
    (hbase : base = [] ∨ ∃ s, base = s ++ ['\n']) :
    P ∈ existingOf (some (base ++ P ++ ['\n'])) := by
  have hmemPart : P ∈ ((splitLines (P ++ ['\n'])).map strip).filter (· ≠ []) := by
    rw [splitLines_clean_append hnl]
    rw [show ([P, []].map strip) = [P, []] by simp [hstrip, strip_nil]]
    have : ([P, []].filter (· ≠ [])) = [P] := by
      simp [List.filter, hP]
    rw [this]
    exact List.mem_singleton_self P
  rcases hbase with hb | ⟨s, hb⟩
  · rw [hb]
    simpa [existingOf] using hmemPart
  · rw [hb]
    show P ∈ ((splitLines (s ++ ['\n'] ++ P ++ ['\n'])).map strip).filter (· ≠ [])
    have hsplit : splitLines (s ++ ['\n'] ++ P ++ ['\n']) =
        (splitLines (s ++ ['\n'])).dropLast ++ splitLines (P ++ ['\n']) := by
      unfold splitLines
      rw [show s ++ ['\n'] ++ P ++ ['\n'] = s ++ '\n' :: (P ++ ['\n']) by simp]
      exact splitLinesAux_newline_append s (P ++ ['\n']) []
    rw [hsplit, List.map_append, List.filter_append]
    exact List.mem_append_right _ hmemPart

theorem ignore_foldl_eq (content : Option (List Char)) (files : List (List Char))
    (acc : List Char) :
    files.foldl
        (fun acc f => if f ∈ existingOf content then acc else acc ++ f ++ ['\n'])
        acc = acc ++ appendixOf content files := by
  induction files generalizing acc with
  | nil => simp [appendixOf]
  | cons f fs ih =>
      rw [List.foldl_cons]
      by_cases hf : f ∈ existingOf content
      · rw [if_pos hf, ih]
        have : appendixOf content (f :: fs) = appendixOf content fs := by
          unfold appendixOf
          rw [List.filter_cons, if_neg (by simpa using hf)]
        rw [this]
      · rw [if_neg hf, ih]
        have : appendixOf content (f :: fs) = (f ++ ['\n']) ++ appendixOf content fs := by
          unfold appendixOf
          rw [List.filter_cons, if_pos (by simpa using hf)]
          simp
        rw [this]
        simp

theorem ignore_eq (content : Option (List Char)) (files : List (List Char))
    (h : files ≠ []) :
    ignore content files =
      (some (content.getD [] ++ appendixOf content files), true) := by
  unfold ignore
  rw [if_neg h]
  simp only
  rw [ignore_foldl_eq]

theorem appendixOf_single_mem {content : Option (List Char)} {P : List Char}
    (h : P ∈ existingOf content) : appendixOf content [P] = [] := by
  unfold appendixOf
  rw [List.filter_cons, if_neg (by simpa using h), List.filter_nil]
  rfl

theorem appendixOf_single_not_mem {content : Option (List Char)} {P : List Char}
    (h : P ∉ existingOf content) : appendixOf content [P] = P ++ ['\n'] := by
  unfold appendixOf
  rw [List.filter_cons, if_pos (by simpa using h), List.filter_nil]
  simp

theorem existing_single {P : List Char} (hP : P ≠ []) (hstrip : strip P = P)
    (hnl : ∀ c ∈ P, ¬ c = '\n') : existingOf (some (P ++ ['\n'])) = [P] := by
  show ((splitLines (P ++ ['\n'])).map strip).filter (· ≠ []) = [P]
  rw [splitLines_clean_append hnl]
  rw [show ([P, []].map strip) = [P, []] by simp [hstrip, strip_nil]]
  rw [List.filter_cons, if_pos (by simpa using hP), List.filter_cons,
    if_neg (by simp), List.filter_nil]

/-- C6 (amended): `ignore(paths)` is a no-op on empty input; it treats a
missing ignore file like an empty one; otherwise it appends exactly the input
patterns not already present among the stripped non-blank lines of the file
(one per line, in input order, each with a trailing newline), leaves the
existing content in place as a prefix, and stages the ignore file.
`ignore([P])` called twice is idempotent — the ignore file holds exactly one
entry for `P` after either one or two calls — provided `P` is non-empty,
contains no newline and equals its own strip, and the pre-existing file is
absent, empty, or newline-terminated.  (For other patterns, e.g. one with a
trailing space, the second call appends a duplicate: the strip applied when
reading the file back means the written line never matches the pattern.) -/
theorem C6_ignore_behaviour (content : Option (List Char))
    (files : List (List Char)) (P : List Char) :
    (ignore content [] = (content, false)) ∧
    (files ≠ [] → ignore none files = ignore (some []) files) ∧
    (files ≠ [] → ignore content files =
      (some (content.getD [] ++ appendixOf content files), true)) ∧
    (P ≠ [] → strip P = P → (∀ ch ∈ P, ¬ ch = '\n') → NlTerminated content →
      ((ignore (ignore content [P]).1 [P]).1 = (ignore content [P]).1 ∧
       (content = none →
         existingOf (ignore content [P]).1 = [P] ∧
         existingOf (ignore (ignore content [P]).1 [P]).1 = [P]))) := by
  refine ⟨rfl, ?_, fun h => ignore_eq content files h, ?_⟩
  · intro h
    rw [ignore_eq _ _ h, ignore_eq _ _ h]
    rfl
  · intro hP hstrip hnl hterm
    have hbase : content.getD [] = [] ∨ ∃ s, content.getD [] = s ++ ['\n'] := by
      rcases hterm with h | h | ⟨s, h⟩
      · rw [h]; left; rfl
      · rw [h]; left; rfl
      · rw [h]; right; exact ⟨s, rfl⟩
    by_cases hmem : P ∈ existingOf content
    · have hcontent : ∃ s, content = some s := by
        cases content with
        | none => exact absurd hmem (by simp [existingOf])
        | some s => exact ⟨s, rfl⟩
      obtain ⟨s, hcs⟩ := hcontent
      have hfst : (ignore content [P]).1 = content := by
        rw [ignore_eq _ _ (by simp), appendixOf_single_mem hmem, hcs]
        simp
      constructor
      · rw [hfst, hfst]
      · intro hnone
        rw [hnone] at hcs
        exact absurd hcs (by simp)
    · have hfst : (ignore content [P]).1 =
          some (content.getD [] ++ P ++ ['\n']) := by
        rw [ignore_eq _ _ (by simp), appendixOf_single_not_mem hmem]
        simp
      have hmem2 : P ∈ existingOf (some (content.getD [] ++ P ++ ['\n'])) :=
        mem_existing_after_append _ P hP hstrip hnl hbase
      have hsecond : (ignore (some (content.getD [] ++ P ++ ['\n'])) [P]).1 =
          some (content.getD [] ++ P ++ ['\n']) := by
        rw [ignore_eq _ _ (by simp), appendixOf_single_mem hmem2]
        simp
      constructor
      · rw [hfst, hsecond]
      · intro hnone
        rw [hnone] at hfst hmem2 hsecond ⊢
        have hgd : (none : Option (List Char)).getD [] ++ P ++ ['\n'] =
            P ++ ['\n'] := by simp
        constructor
        · rw [hfst, hgd]
          exact existing_single hP hstrip hnl
        · rw [hfst, hsecond, hgd]
          exact existing_single hP hstrip hnl

/-- C6 counterexample: for the pattern `"a "` (with a trailing space) starting
from a missing ignore file, the first call writes the line `"a "`, but reading
the file back strips the line to `"a"`, which does not match the pattern, so a
second identical call appends the line again: after two calls the file holds
two entries for the pattern, refuting the unconditional idempotence the claim
states. -/
theorem C6_counterexample :
    (ignore none [['a', ' ']]).1 = some ['a', ' ', '\n'] ∧
    (ignore (ignore none [['a', ' ']]).1 [['a', ' ']]).1 =
      some ['a', ' ', '\n', 'a', ' ', '\n'] ∧
    (splitLines ['a', ' ', '\n', 'a', ' ', '\n']).countP
      (fun l => decide (l = ['a', ' '])) = 2 := by
  refine ⟨by decide, by decide, by decide⟩

/-- C10: `ignore` checks each input pattern for duplication only against the
lines already in the ignore file before the call (the `existing` list is
computed once, before the write loop), not against patterns written earlier in
the same call: an input list holding the same new pattern twice gets that
pattern appended to the file twice. -/
theorem C10_same_call_duplicate (content : Option (List Char)) (f : List Char)
    (h : f ∉ existingOf content) :
    (ignore content [f, f]).1 =
      some (content.getD [] ++ (f ++ ['\n']) ++ (f ++ ['\n'])) := by
  rw [ignore_eq _ _ (by simp)]
  have happ : appendixOf content [f, f] = (f ++ ['\n']) ++ (f ++ ['\n']) := by
    unfold appendixOf
    rw [List.filter_cons, if_pos (by simpa using h), List.filter_cons,
      if_pos (by simpa using h), List.filter_nil]
    simp
  rw [happ]
  simp

/-! ### Construction (`Repository.__init__`, git_backend.py lines 16-23) -/

/-- The facts about a target path the constructor checks observes: whether the
path carries VCS metadata (so the library's `Repo(path)` constructor succeeds)
and whether the repository found there is bare. -/
structure PathState where
  hasGitMetadata : Bool
  bare : Bool
deriving DecidableEq, Repr

/-- The errors a construction attempt can surface: the library's
invalid-repository error (propagating uncaught, since `Repo(path)` signals a
missing repository with `InvalidGitRepositoryError`, which is not a
`GitCommandError`), or the `ValueError` the constructor itself raises for a
bare repository.  Both say the path is not a usable non-bare working tree: they
realise the spec's `NotARepositoryError`. -/
inductive ConstructError where
  | invalidGitRepository
  | valueErrorNotAGitRepo
deriving DecidableEq, Repr

structure Repository where
  path : String
deriving DecidableEq, Repr

/-- Models the library call `Repo(self.path)` at git_backend.py line 19: it
fails iff the path has no VCS metadata. -/
def repoOpen (ps : PathState) : Except ConstructError PathState :=
  if ps.hasGitMetadata then Except.ok ps
  else Except.error ConstructError.invalidGitRepository

/-- Embeds `Repository.__init__` (git_backend.py lines 16-23): open the
repository (a failure propagates as the construction's failure), then reject a
bare repository with a `ValueError`. -/
def repositoryInit (ps : PathState) (path : String) :
    Except ConstructError Repository :=
  match repoOpen ps with
  | Except.error e => Except.error e
  | Except.ok repo =>
      if repo.bare then Except.error ConstructError.valueErrorNotAGitRepo
      else Except.ok (Repository.mk path)

/-- C4: construction on any path that is not a valid non-bare working tree
(missing VCS metadata, or a bare repository) fails with an error — the spec's
`NotARepositoryError` — and yields no usable handle. -/
theorem C4_construction_fails (ps : PathState) (path : String)
    (h : ps.hasGitMetadata = false ∨ ps.bare = true) :
    (∃ e, repositoryInit ps path = Except.error e) ∧
      ∀ r, repositoryInit ps path ≠ Except.ok r := by
  have hfail : ∃ e, repositoryInit ps path = Except.error e := by
    rcases h with h | h
    · refine ⟨ConstructError.invalidGitRepository, ?_⟩
      unfold repositoryInit repoOpen
      rw [h]
      rfl
    · unfold repositoryInit repoOpen
      by_cases hm : ps.hasGitMetadata
      · refine ⟨ConstructError.valueErrorNotAGitRepo, ?_⟩
        rw [if_pos hm]
        show (if ps.bare then _ else _) = _
        rw [h]
        rfl
      · refine ⟨ConstructError.invalidGitRepository, ?_⟩
        rw [if_neg hm]
  refine ⟨hfail, ?_⟩
  intro r hok
  obtain ⟨e, he⟩ := hfail
  rw [hok] at he
  exact Except.noConfusion he

/-! ### Single-path diff (`Repository.diff`, git_backend.py lines 123-129) -/

/-- Models a GitPython `Diff` object as the loop at git_backend.py line 129
consumes it: only its patch bytes matter there. -/
structure DiffEntry where
  path : String
  change_type : Char
  diffBytes : List Char
deriving DecidableEq, Repr

/-- Models `repo.index.diff(target, paths=[path])` as called at git_backend.py
lines 126 and 128: `create_patch` is left at its default `False`, so the
library parses the raw (`--raw`) diff format and fills the `diff` attribute of
every returned `Diff` object with empty bytes; only entries matching the
requested path are returned. -/
def rawFormatDiffs (changes : List (String × Char)) (path : String) :
    List DiffEntry :=
  (changes.filter (fun e => e.1 = path)).map
    (fun e => DiffEntry.mk e.1 e.2 [])

/-- Embeds `Repository.diff` (git_backend.py lines 123-129): pick the
index-vs-HEAD change list when `cached`, else the worktree-vs-index one, and
concatenate the decoded patch bytes of the returned entries. -/
def diff (indexHead worktreeIndex : List (String × Char)) (path : String)
    (cached : Bool) : List Char :=
  ((if cached then rawFormatDiffs indexHead path
    else rawFormatDiffs worktreeIndex path).map (·.diffBytes)).flatten

theorem flatten_nil_of_all_nil {α : Type} (l : List (List α))
    (h : ∀ x ∈ l, x = []) : l.flatten = [] := by
  induction l with
  | nil => rfl
  | cons x rest ih =>
      rw [List.flatten_cons, h x (List.mem_cons_self x rest), List.nil_append]
      exact ih (fun y hy => h y (List.mem_cons_of_mem x hy))

theorem rawFormatDiffs_bytes {changes : List (String × Char)} {path : String} :
    ∀ d ∈ rawFormatDiffs changes path, d.diffBytes = [] := by
  intro d hd
  obtain ⟨e, _, he⟩ := List.mem_map.mp hd
  rw [← he]

/-- C5 evaluates the code at the failing input: because `Repository.diff` never
requests patch generation (`create_patch` stays `False`), every returned entry
carries empty patch bytes and the concatenation is always the empty string.
In particular, in the spec's own scenario — `file.txt` committed with
`"hello"`, worktree changed to `"hello world"`, so the worktree-vs-index diff
reports `("file.txt", 'M')` — the result is empty and cannot contain a removed
`-hello` line, contradicting the claim and the repository's `test_diff`. -/
theorem C5_diff_always_empty :
    (∀ indexHead worktreeIndex path cached,
      diff indexHead worktreeIndex path cached = []) ∧
    diff [] [("file.txt", 'M')] "file.txt" false = [] := by
  constructor
  · intro indexHead worktreeIndex path cached
    unfold diff
    apply flatten_nil_of_all_nil
    intro x hx
    obtain ⟨d, hd, hdx⟩ := List.mem_map.mp hx
    rw [← hdx]
    cases cached with
    | true =>
        rw [if_pos rfl] at hd
        exact rawFormatDiffs_bytes d hd
    | false =>
        rw [if_neg (by simp)] at hd
        exact rawFormatDiffs_bytes d hd
  · decide

/-! ### Commit graph model for `log`, `current_branch` and `push_review`
(git_backend.py lines 107-121).  Commits are indexed by creation order (a
parent always has a smaller index than its child, and a larger index means a
more recent commit); `iter_commits` enumerates reachable commits most recent
first. -/

structure Commit where
  hexsha : List Char
  summary : List Char
  parents : List Nat
deriving DecidableEq, Repr

structure CommitGraph where
  commits : List Commit
deriving DecidableEq, Repr

/-- The parents of commit `i`, restricted to indices of earlier commits (in a
real history a parent always predates its child, so the restriction is
vacuous; it makes the recursion below structural). -/
def parentsOf (g : CommitGraph) (i : Nat) : List Nat :=
  match g.commits.get? i with
  | some c => c.parents.filter (fun p => decide (p < i))
  | none => []

def ancestorsFuel (g : CommitGraph) : Nat → Nat → List Nat
  | 0, i => [i]
  | fuel + 1, i =>
      i :: ((parentsOf g i).map (fun p => ancestorsFuel g fuel p)).flatten

/-- All commits reachable from `i` (including `i` itself) by following parent
edges.  Since every parent index is smaller than its child's, a fuel of `i`
saturates the traversal. -/
def ancestors (g : CommitGraph) (i : Nat) : List Nat := ancestorsFuel g i i

/-- `reach g a b` holds when commit `b` is reachable from commit `a`. -/
def reach (g : CommitGraph) (a b : Nat) : Prop := b ∈ ancestors g a

instance (g : CommitGraph) (a b : Nat) : Decidable (reach g a b) := by
  unfold reach
  infer_instance

theorem parentsOf_lt (g : CommitGraph) (i : Nat) : ∀ p ∈ parentsOf g i, p < i := by
  intro p hp
  unfold parentsOf at hp
  cases hget : g.commits.get? i with
  | none => rw [hget] at hp; simp at hp
  | some c =>
      rw [hget] at hp
      have := (List.mem_filter.mp hp).2
      simpa using this

theorem self_mem_ancestorsFuel (g : CommitGraph) (fuel i : Nat) :
    i ∈ ancestorsFuel g fuel i := by
  cases fuel with
  | zero => exact List.mem_singleton_self i
  | succ f => exact List.mem_cons_self i _

theorem ancestorsFuel_mono (g : CommitGraph) :
    ∀ fuel fuel' i b, fuel ≤ fuel' → i ≤ fuel →
      b ∈ ancestorsFuel g fuel i → b ∈ ancestorsFuel g fuel' i := by
  intro fuel
  induction fuel with
  | zero =>
      intro fuel' i b _ hi hb
      have : i = 0 := Nat.le_zero.mp hi
      rw [this] at hb ⊢
      have hb0 : b = 0 := by
        rw [show ancestorsFuel g 0 0 = [0] from rfl] at hb
        exact List.mem_singleton.mp hb
      rw [hb0]
      exact self_mem_ancestorsFuel g fuel' 0
  | succ f ih =>
      intro fuel' i b hle hi hb
      obtain ⟨f', rfl⟩ : ∃ f', fuel' = f' + 1 :=
        ⟨fuel' - 1, by omega⟩
      rcases List.mem_cons.mp hb with rfl | hb
      · exact List.mem_cons_self b _
      · obtain ⟨l, hl, hbl⟩ := List.mem_flatten.mp hb
        obtain ⟨p, hp, hpl⟩ := List.mem_map.mp hl
        rw [← hpl] at hbl
        apply List.mem_cons_of_mem
        apply List.mem_flatten.mpr
        refine ⟨ancestorsFuel g f' p, List.mem_map_of_mem _ hp, ?_⟩
        have hpf : p ≤ f := by
          have := parentsOf_lt g i p hp
          omega
        exact ih f' p b (by omega) hpf hbl

/-- `reach` is exactly reflexive-transitive reachability along parent edges:
the fuel used by `ancestors` saturates the traversal. -/
theorem reach_iff_reflTransGen (g : CommitGraph) (a b : Nat) :
    reach g a b ↔ Relation.ReflTransGen (fun i p => p ∈ parentsOf g i) a b := by
  constructor
  · unfold reach ancestors
    have main : ∀ fuel i, ∀ c ∈ ancestorsFuel g fuel i,
        Relation.ReflTransGen (fun i p => p ∈ parentsOf g i) i c := by
      intro fuel
      induction fuel with
      | zero =>
          intro i c hc
          rw [List.mem_singleton.mp hc]
      | succ f ih =>
          intro i c hc
          rcases List.mem_cons.mp hc with rfl | hc
          · exact Relation.ReflTransGen.refl
          · obtain ⟨l, hl, hcl⟩ := List.mem_flatten.mp hc
            obtain ⟨p, hp, hpl⟩ := List.mem_map.mp hl
            rw [← hpl] at hcl
            exact Relation.ReflTransGen.head hp (ih p c hcl)
    exact main a a b
  · intro h
    induction h using Relation.ReflTransGen.head_induction_on with
    | refl => exact self_mem_ancestorsFuel g b b
    | head hstep _ ih =>
        rename_i i p _
        unfold reach ancestors at ih ⊢
        have hip : p < i := parentsOf_lt g i p hstep
        obtain ⟨j, rfl⟩ : ∃ j, i = j + 1 := ⟨i - 1, by omega⟩
        apply List.mem_cons_of_mem
        apply List.mem_flatten.mpr
        refine ⟨ancestorsFuel g j p, List.mem_map_of_mem _ hstep, ?_⟩
        exact ancestorsFuel_mono g p j p b (by omega) (Nat.le_refl p) ih

/-- Models `git rev-list base..tip` (as `iter_commits` consumes it at
git_backend.py line 120): the commits reachable from `tip` but not from
`base`, most recent (largest index) first. -/
def revRange (g : CommitGraph) (base tip : Nat) : List Nat :=
  ((List.range g.commits.length).reverse).filter
    (fun i => decide (reach g tip i ∧ ¬ reach g base i))

/-- Models `iter_commits()` from a single tip (git_backend.py line 108):
commits reachable from the tip, most recent first. -/
def revFrom (g : CommitGraph) (tip : Nat) : List Nat :=
  ((List.range g.commits.length).reverse).filter (fun i => decide (reach g tip i))

/-- Embeds the line format `f"{c.hexsha[:7]} {c.summary}"` used at
git_backend.py lines 109 and 121. -/
def formatCommit (c : Commit) : List Char := c.hexsha.take 7 ++ ' ' :: c.summary

def formatLines (g : CommitGraph) (is : List Nat) : List (List Char) :=
  is.filterMap (fun i => (g.commits.get? i).map formatCommit)

/-- Embeds Python's `"\n".join(...)`. -/
def joinLines (lines : List (List Char)) : List Char :=
  List.intercalate ['\n'] lines

inductive GitError where
  | detachedHead
  | missingRef
deriving DecidableEq, Repr

/-- The state of the repository the three history operations read: the commit
graph, the local branch tips, the remote-tracking tips (`remote/branch`), and
HEAD (a branch name, or a bare commit when detached). -/
structure RepoModel where
  graph : CommitGraph
  branches : List (String × Nat)
  remoteRefs : List ((String × String) × Nat)
  headRef : Sum String Nat
deriving DecidableEq, Repr

def lookupTip (l : List (String × Nat)) (b : String) : Option Nat :=
  match l with
  | [] => none
  | e :: rest => if e.1 = b then some e.2 else lookupTip rest b

def lookupRemote (l : List ((String × String) × Nat)) (k : String × String) :
    Option Nat :=
  match l with
  | [] => none
  | e :: rest => if e.1 = k then some e.2 else lookupRemote rest k

/-- The commit HEAD resolves to. -/
def headCommitOf (r : RepoModel) : Option Nat :=
  match r.headRef with
  | Sum.inl b => lookupTip r.branches b
  | Sum.inr i => some i

/-- Embeds `Repository.current_branch` (git_backend.py lines 111-113):
`repo.active_branch.name` yields the branch name, and raises when HEAD is
detached — the failure the spec names `DetachedHeadError`. -/
def current_branch (r : RepoModel) : Except GitError String :=
  match r.headRef with
  | Sum.inl b => Except.ok b
  | Sum.inr _ => Except.error GitError.detachedHead

/-- Embeds `Repository.log` (git_backend.py lines 107-109):
`iter_commits(max_count=n)` walks from HEAD, most recent first, bounded to
`n` commits; each is formatted as `shortHash summary`. -/
def log (r : RepoModel) (max_count : Nat) : Except GitError (List Char) :=
  match headCommitOf r with
  | some tip =>
      Except.ok (joinLines (formatLines r.graph ((revFrom r.graph tip).take max_count)))
  | none => Except.error GitError.missingRef

/-- Embeds the `if branch is None: branch = self.current_branch()` default at
git_backend.py lines 117-118. -/
def resolveBranch (r : RepoModel) (branch : Option String) :
    Except GitError String :=
  match branch with
  | some b => Except.ok b
  | none => current_branch r

/-- Embeds `Repository.push_review` (git_backend.py lines 115-121): resolve
the branch, then list the commits of `remote/branch..HEAD` in `shortHash
summary` format. -/
def push_review (r : RepoModel) (remote : String) (branch : Option String) :
    Except GitError (List Char) :=
  match resolveBranch r branch with
  | Except.error e => Except.error e
  | Except.ok b =>
      match lookupRemote r.remoteRefs (remote, b), headCommitOf r with
      | some base, some tip =>
          Except.ok (joinLines (formatLines r.graph (revRange r.graph base tip)))
      | _, _ => Except.error GitError.missingRef

theorem mem_revRange (g : CommitGraph) (base tip i : Nat) :
    i ∈ revRange g base tip ↔
      i < g.commits.length ∧ reach g tip i ∧ ¬ reach g base i := by
  unfold revRange
  rw [List.mem_filter, List.mem_reverse, List.mem_range]
  simp

theorem reverse_range_pairwise (n : Nat) :
    ((List.range n).reverse).Pairwise (· > ·) := by
  rw [List.pairwise_reverse]
  exact List.pairwise_lt_range n

theorem revRange_sorted (g : CommitGraph) (base tip : Nat) :
    (revRange g base tip).Pairwise (· > ·) :=
  (reverse_range_pairwise g.commits.length).filter _

theorem revFrom_sorted (g : CommitGraph) (tip : Nat) :
    (revFrom g tip).Pairwise (· > ·) :=
  (reverse_range_pairwise g.commits.length).filter _

theorem mem_formatLines {g : CommitGraph} {is : List Nat} {line : List Char}
    (h : line ∈ formatLines g is) :
    ∃ i c, i ∈ is ∧ g.commits.get? i = some c ∧
      line = c.hexsha.take 7 ++ ' ' :: c.summary := by
  unfold formatLines at h
  obtain ⟨i, hi, hline⟩ := List.mem_filterMap.mp h
  cases hget : g.commits.get? i with
  | none =>
      rw [hget] at hline
      exact absurd hline (by simp)
  | some c =>
      rw [hget] at hline
      have : formatCommit c = line := by simpa using hline
      exact ⟨i, c, hi, hget, this.symm⟩

theorem mem_of_list_get? {α : Type} :
    ∀ {l : List α} {n : Nat} {a : α}, l.get? n = some a → a ∈ l := by
  intro l
  induction l with
  | nil => intro n a h; cases n <;> exact Option.noConfusion h
  | cons x xs ih =>
      intro n a h
      cases n with
      | zero =>
          have : x = a := Option.some.inj h
          rw [this]
          exact List.mem_cons_self a xs
      | succ m => exact List.mem_cons_of_mem x (ih h)

/-- C8: whenever HEAD is detached (not pointing at a branch tip),
`current_branch()` fails with the spec's `DetachedHeadError`; whenever HEAD is
on a branch, it returns that branch's name. -/
theorem C8_current_branch (r : RepoModel) :
    (∀ i, r.headRef = Sum.inr i →
      current_branch r = Except.error GitError.detachedHead) ∧
    (∀ b, r.headRef = Sum.inl b → current_branch r = Except.ok b) := by
  constructor
  · intro i hi
    unfold current_branch
    rw [hi]
  · intro b hb
    unfold current_branch
    rw [hb]

/-- C3: `push_review(remote, branch)` returns the newline-joined
`shortHash summary` lines of the commits reachable from local HEAD but not
from `remote/branch`, defaulting `branch` to the current branch when omitted,
most recent first; when there is no such commit the result is the empty
string. -/
theorem C3_push_review (r : RepoModel) (remote b : String)
    (branch : Option String) (base tip : Nat)
    (hb : branch = some b ∨ (branch = none ∧ r.headRef = Sum.inl b))
    (hrem : lookupRemote r.remoteRefs (remote, b) = some base)
    (hhead : headCommitOf r = some tip) :
    push_review r remote branch =
      Except.ok (joinLines (formatLines r.graph (revRange r.graph base tip))) ∧
    (∀ i, i ∈ revRange r.graph base tip ↔
      i < r.graph.commits.length ∧ reach r.graph tip i ∧ ¬ reach r.graph base i) ∧
    (revRange r.graph base tip).Pairwise (· > ·) ∧
    (∀ line ∈ formatLines r.graph (revRange r.graph base tip),
      ∃ i c, i ∈ revRange r.graph base tip ∧ r.graph.commits.get? i = some c ∧
        line = c.hexsha.take 7 ++ ' ' :: c.summary) ∧
    ((∀ i, reach r.graph tip i → reach r.graph base i) →
      push_review r remote branch = Except.ok []) := by
  have hbranch : resolveBranch r branch = Except.ok b := by
    rcases hb with rfl | ⟨rfl, hhd⟩
    · rfl
    · unfold resolveBranch current_branch
      rw [hhd]
  have hres : push_review r remote branch =
      Except.ok (joinLines (formatLines r.graph (revRange r.graph base tip))) := by
    unfold push_review
    rw [hbranch]
    show (match lookupRemote r.remoteRefs (remote, b), headCommitOf r with
          | some base, some tip =>
              Except.ok (joinLines (formatLines r.graph (revRange r.graph base tip)))
          | _, _ => Except.error GitError.missingRef) = _
    rw [hrem, hhead]
  refine ⟨hres, mem_revRange r.graph base tip, revRange_sorted r.graph base tip, ?_, ?_⟩
  · intro line hline
    exact mem_formatLines hline
  · intro hall
    have hempty : revRange r.graph base tip = [] := by
      unfold revRange
      rw [List.filter_eq_nil_iff]
      intro i _
      simp only [decide_eq_true_eq, not_and, not_not]
      intro hreach
      exact hall i hreach
    rw [hres, hempty]
    rfl

/-- All abbreviated hashes are well formed: every commit's `hexsha` is a
40-character lowercase-hex string, as git guarantees. -/
def ShaWf (g : CommitGraph) : Prop :=
  ∀ c ∈ g.commits, c.hexsha.length = 40 ∧
    ∀ ch ∈ c.hexsha, (ch.isDigit || ('a' ≤ ch && ch ≤ 'f')) = true

instance (g : CommitGraph) : Decidable (ShaWf g) := by
  unfold ShaWf
  infer_instance

/-- C7: for every positive `max_count`, `log(max_count)` returns at most
`max_count` lines joined by newlines, most recent commit first (indices are
creation-ordered, so descending index means most recent first), and each line
is exactly a 7-hex-character abbreviated hash, one space, and the commit
summary — nothing else. -/
theorem C7_log (r : RepoModel) (max_count tip : Nat) (hpos : 0 < max_count)
    (hhead : headCommitOf r = some tip) (hsha : ShaWf r.graph) :
    ∃ is, log r max_count = Except.ok (joinLines (formatLines r.graph is)) ∧
      is.length ≤ max_count ∧
      (formatLines r.graph is).length ≤ max_count ∧
      is.Pairwise (· > ·) ∧
      ∀ line ∈ formatLines r.graph is, ∃ i c,
        r.graph.commits.get? i = some c ∧
        line = c.hexsha.take 7 ++ ' ' :: c.summary ∧
        (c.hexsha.take 7).length = 7 ∧
        ∀ ch ∈ c.hexsha.take 7, (ch.isDigit || ('a' ≤ ch && ch ≤ 'f')) = true := by
  refine ⟨(revFrom r.graph tip).take max_count, ?_, ?_, ?_, ?_, ?_⟩
  · unfold log
    rw [hhead]
  · rw [List.length_take]
    exact min_le_left _ _
  · calc (formatLines r.graph ((revFrom r.graph tip).take max_count)).length
        ≤ ((revFrom r.graph tip).take max_count).length :=
          List.length_filterMap_le _ _
      _ ≤ max_count := by rw [List.length_take]; exact min_le_left _ _
  · exact (revFrom_sorted r.graph tip).sublist (List.take_sublist _ _)
  · intro line hline
    obtain ⟨i, c, _, hget, hform⟩ := mem_formatLines hline
    have hc : c ∈ r.graph.commits := mem_of_list_get? hget
    have hwf := hsha c hc
    refine ⟨i, c, hget, hform, ?_, ?_⟩
    · rw [List.length_take, hwf.1]
      decide
    · intro ch hch
      exact hwf.2 ch (List.take_subset 7 c.hexsha hch)

/-! ### Witnesses: the hypothesis-bearing theorems applied at concrete inputs -/

/-- A two-commit history: commit 1 (the most recent) has commit 0 as parent. -/
def sampleGraph : CommitGraph :=
  CommitGraph.mk
    [Commit.mk (List.replicate 40 'a') ['i', 'n', 'i', 't'] [],
     Commit.mk (List.replicate 40 'b') ['n', 'e', 'w'] [0]]

/-- HEAD on branch master at commit 1; origin/master still at commit 0. -/
def sampleRepo : RepoModel :=
  RepoModel.mk sampleGraph [("master", 1)] [(("origin", "master"), 0)]
    (Sum.inl "master")

theorem C1_tracked_path_unique_witness :
    ((([("a", 'M')] : List (String × Char)).map Prod.fst).Nodup ∧
     (([("a", 'M'), ("b", 'D')] : List (String × Char)).map Prod.fst).Nodup) ∧
    FileStatus.mk "a" ['M', 'M'] ∈
      status [("a", 'M')] [("a", 'M'), ("b", 'D')] ["c"] :=
  ⟨⟨by decide, by decide⟩,
    (C1_tracked_path_unique [("a", 'M')] [("a", 'M'), ("b", 'D')] ["c"]
      (by decide) (by decide)).2.1 "a" 'M' 'M' (by decide) (by decide)⟩

theorem C2_slot_mapping_witness :
    FileStatus.mk "x" ['A', ' '] ∈ status [("x", 'A')] [("y", 'M')] ["z"] ∧
    FileStatus.mk "y" [' ', 'M'] ∈ status [("x", 'A')] [("y", 'M')] ["z"] :=
  ⟨(C2_slot_mapping [("x", 'A')] [("y", 'M')] ["z"] (by decide) (by decide)).2.1
      "x" 'A' (by decide) (by decide),
    (C2_slot_mapping [("x", 'A')] [("y", 'M')] ["z"] (by decide) (by decide)).2.2.1
      "y" 'M' (by decide) (by decide)⟩

theorem C9_status_invariant_witness :
    (FileStatus.mk "f" ['M', ' ']).status.length = 2 ∧
    (∀ c ∈ (FileStatus.mk "f" ['M', ' ']).status,
      c ∈ ['A', 'M', 'D', 'R', ' ', '?']) ∧
    ('?' ∈ (FileStatus.mk "f" ['M', ' ']).status →
      (FileStatus.mk "f" ['M', ' ']).status = ['?', '?']) ∧
    ((FileStatus.mk "f" ['M', ' ']).status ≠ ['?', '?'] →
      ∃ c ∈ (FileStatus.mk "f" ['M', ' ']).status, c ≠ ' ') :=
  C9_status_invariant [("f", 'M')] [] [] "f" (FileStatus.mk "f" ['M', ' '])
    (Or.inl (by decide))

theorem C6_ignore_behaviour_witness :
    (ignore (ignore none [['t']]).1 [['t']]).1 = (ignore none [['t']]).1 ∧
    existingOf (ignore none [['t']]).1 = [['t']] :=
  have h := (C6_ignore_behaviour none [['p']] ['t']).2.2.2 (by decide) (by decide)
    (by decide) (Or.inl rfl)
  ⟨h.1, (h.2 rfl).1⟩

theorem C10_same_call_duplicate_witness :
    (['t'] : List Char) ∉ existingOf none ∧
    (ignore none [['t'], ['t']]).1 =
      some ((none : Option (List Char)).getD [] ++
        (['t'] ++ ['\n']) ++ (['t'] ++ ['\n'])) :=
  ⟨by decide, C10_same_call_duplicate none ['t'] (by decide)⟩

theorem C4_construction_fails_witness :
    ((PathState.mk false false).hasGitMetadata = false ∨
      (PathState.mk false false).bare = true) ∧
    (∃ e, repositoryInit (PathState.mk false false) "p" = Except.error e) ∧
    (∀ r, repositoryInit (PathState.mk false false) "p" ≠ Except.ok r) :=
  ⟨Or.inl rfl,
    (C4_construction_fails (PathState.mk false false) "p" (Or.inl rfl)).1,
    (C4_construction_fails (PathState.mk false false) "p" (Or.inl rfl)).2⟩

theorem C8_current_branch_witness :
    current_branch (RepoModel.mk (CommitGraph.mk []) [] [] (Sum.inr 0)) =
      Except.error GitError.detachedHead ∧
    current_branch sampleRepo = Except.ok "master" :=
  ⟨(C8_current_branch (RepoModel.mk (CommitGraph.mk []) [] [] (Sum.inr 0))).1
      0 rfl,
    (C8_current_branch sampleRepo).2 "master" rfl⟩

theorem C3_push_review_witness :
    push_review sampleRepo "origin" none =
      Except.ok (joinLines (formatLines sampleGraph (revRange sampleGraph 0 1))) ∧
    joinLines (formatLines sampleGraph (revRange sampleGraph 0 1)) =
      ['b', 'b', 'b', 'b', 'b', 'b', 'b', ' ', 'n', 'e', 'w'] :=
  ⟨(C3_push_review sampleRepo "origin" "master" none 0 1
      (Or.inr ⟨rfl, rfl⟩) (by decide) (by decide)).1,
    by decide⟩

theorem C7_log_witness :
    0 < 20 ∧ headCommitOf sampleRepo = some 1 ∧ ShaWf sampleGraph ∧
    ∃ is, log sampleRepo 20 =
        Except.ok (joinLines (formatLines sampleRepo.graph is)) ∧
      is.length ≤ 20 ∧ (formatLines sampleRepo.graph is).length ≤ 20 ∧
      is.Pairwise (· > ·) ∧
      ∀ line ∈ formatLines sampleRepo.graph is, ∃ i c,
        sampleRepo.graph.commits.get? i = some c ∧
        line = c.hexsha.take 7 ++ ' ' :: c.summary ∧
        (c.hexsha.take 7).length = 7 ∧
        ∀ ch ∈ c.hexsha.take 7, (ch.isDigit || ('a' ≤ ch && ch ≤ 'f')) = true :=
  ⟨by decide, by decide, by decide,
    C7_log sampleRepo 20 1 (by decide) (by decide) (by decide)⟩

end GitGui
